import Mathlib

/-!
Verification of the retrieval pipeline of a PDF RAG application
(chunking, cross-document result balancing, vector-store lifecycle).

Source files embedded here:
 - processor/main.py : PDFProcessor.chunk_text, PDFProcessor.store_in_qdrant,
   process_pdf
 - app_qdrant_api.py : ensure_collection_exists, search_qdrant_api,
   get_all_collections, process_pdf_with_llamaindex_and_qdrant_api

Python strings are embedded as `List Char`, floating-point similarity
scores as `ℚ` (the code only ever compares them), and the external Qdrant
service (insert-or-overwrite-by-id point store, named collections) is
modelled from its documented REST semantics.  The Python `while` loop in
`chunk_text` is embedded with an explicit fuel parameter; divergence of
the loop corresponds to the embedding returning `none` for every fuel.
-/

/-! ### Python slice semantics

`text[a:b]`: a negative index counts from the end of the sequence, then
both bounds are clamped to `[0, len]`. -/

/-- Effective index of `i` into a sequence of length `n`, Python style. -/
def pyIdx (n : Nat) (i : Int) : Nat :=
  if i < 0 then n - (-i).toNat else min i.toNat n

/-- Python `text[a:b]`. -/
def pySlice (text : List Char) (a b : Int) : List Char :=
  (text.take (pyIdx text.length b)).drop (pyIdx text.length a)

/-! ### Chunker — `PDFProcessor.chunk_text` (processor/main.py, lines 82–99)

```
def chunk_text(self, text, chunk_size=1000, overlap=200):
    if len(text) <= chunk_size:
        return [text]
    chunks = []
    start = 0
    while start < len(text):
        end = start + chunk_size
        chunk = text[start:end]
        chunks.append(chunk)
        start = end - overlap
        if start >= len(text):
            break
    return chunks
```

`start` lives in `Int` because `end - overlap` may go negative in Python
when `overlap > chunk_size`.  `chunkAux` is one loop iteration per unit
of fuel; `none` means the fuel ran out before the loop exited. -/

def chunkAux (text : List Char) (chunk_size overlap : Nat) :
    Nat → Int → List (List Char) → Option (List (List Char))
  | 0, _, _ => none
  | fuel + 1, start, chunks =>
    if start < (text.length : Int) then
      if (text.length : Int) ≤ start + (chunk_size : Int) - (overlap : Int) then
        some (chunks ++ [pySlice text start (start + (chunk_size : Int))])
      else
        chunkAux text chunk_size overlap fuel
          (start + (chunk_size : Int) - (overlap : Int))
          (chunks ++ [pySlice text start (start + (chunk_size : Int))])
    else some chunks

/-- `PDFProcessor.chunk_text`.  The fuel `text.length + 1` is enough for
the loop to run to completion whenever `overlap < chunk_size` (proved
below); with `overlap ≥ chunk_size` the loop never exits and every fuel
value yields `none`. -/
def chunk_text (text : List Char) (chunk_size overlap : Nat) :
    Option (List (List Char)) :=
  if text.length ≤ chunk_size then some [text]
  else chunkAux text chunk_size overlap (text.length + 1) 0 []

/-- Concatenation of chunks with the first `ov` characters of every chunk
after the first removed (the reconstruction operation of the spec's
chunking round-trip property). -/
def joinOverlap (ov : Nat) : List (List Char) → List Char
  | [] => []
  | c :: rest => c ++ (rest.map (List.drop ov)).flatten

/-! ### `process_pdf` (processor/main.py, lines 180–201)

The caller of the chunker: extracted text that is empty after `strip()`
is treated as "nothing to index" and processing returns without storing
anything; otherwise the text is chunked with the default parameters
`chunk_size=1000, overlap=200`. -/

/-- Python `str.strip()` default whitespace (ASCII). -/
def isPySpace (c : Char) : Bool :=
  c = ' ' || c = '\t' || c = '\n' || c = '\r' || c = Char.ofNat 11 || c = Char.ofNat 12

/-- Python `text.strip()`. -/
def pyStrip (s : List Char) : List Char :=
  ((s.dropWhile isPySpace).reverse.dropWhile isPySpace).reverse

/-- Observable outcome of `process_pdf` for a given extracted text. -/
inductive ProcessResult
  | nothingToIndex
  | stored (chunks : List (List Char))
  | fuelExhausted
deriving DecidableEq

/-- `process_pdf` after text extraction: the `if not text.strip(): return`
guard, then chunking with the default parameters.  (`fuelExhausted` is the
unreachable fuel-out case of the embedded loop.) -/
def process_pdf (text : List Char) : ProcessResult :=
  if pyStrip text = [] then ProcessResult.nothingToIndex
  else
    match chunk_text text 1000 200 with
    | some chunks => ProcessResult.stored chunks
    | none => ProcessResult.fuelExhausted

/-! ### Search results and cross-document balancing
(`search_qdrant_api`, app_qdrant_api.py lines 182–259) -/

/-- One formatted search hit (score plus the payload fields the code
copies out of each Qdrant result). -/
structure Hit where
  score : ℚ
  document_id : String
  filename : String
  chunk_index : Nat
  text : String
  total_chunks : Nat
deriving DecidableEq

/-- Python's stable `list.sort(key=lambda x: x["score"], reverse=True)`:
a stable sort that puts higher scores first and keeps the original
relative order of equal scores. -/
def sortByScoreDesc (results : List Hit) : List Hit :=
  List.insertionSort (fun a b => b.score ≤ a.score) results

/-- The `doc_results` dictionary build: group hits by `filename`,
preserving first-encounter key order and per-key hit order (Python dicts
preserve insertion order). -/
def groupByFilename (results : List Hit) : List (String × List Hit) :=
  results.foldl
    (fun acc h =>
      if acc.any (fun p => h.filename == p.1) then
        acc.map (fun p => if h.filename == p.1 then (p.1, p.2 ++ [h]) else p)
      else acc ++ [(h.filename, [h])])
    []

/-- The tail of `search_qdrant_api` (lines 229–255): sort the merged hits
by score descending; if more than `limit` remain, group by document,
take `max 1 (limit // number_of_documents)` top hits per document,
re-sort and truncate to `limit`; otherwise return the sorted list
truncated to `limit` (a no-op there). -/
def searchBalance (all_results : List Hit) (limit : Nat) : List Hit :=
  let sorted := sortByScoreDesc all_results
  if limit < sorted.length then
    let doc_results := groupByFilename sorted
    let results_per_doc := max 1 (limit / doc_results.length)
    let balanced := (doc_results.map (fun p => p.2.take results_per_doc)).flatten
    (sortByScoreDesc balanced).take limit
  else
    sorted.take limit

/-! Spec-side rendering of the balancing step, written from the design
document's words: "group hits by source document (filename), compute
`per_doc_quota = max(1, limit // number_of_documents_represented)`, take
the top `per_doc_quota` hits per document (already score-sorted within
each document), re-merge, re-sort by score descending, and truncate to
`limit`"; "if the merged list does not exceed `limit`, return it as-is".
It is compared with the code-side `searchBalance` below. -/

/-- First-occurrence-ordered filenames of `results` that are not already
in `known`. -/
def newFilenames (known : List String) : List Hit → List String
  | [] => []
  | h :: t =>
    if h.filename ∈ known then newFilenames known t
    else h.filename :: newFilenames (h.filename :: known) t

/-- The source documents represented in a result list, in order of their
highest-ranked hit. -/
def filenamesInOrder (results : List Hit) : List String :=
  newFilenames [] results

/-- All hits of one source document, in the order they appear in
`results`. -/
def docHits (results : List Hit) (f : String) : List Hit :=
  results.filter (fun h => h.filename == f)

/-- The balancing step as the design document words it, applied to the
already-merged-and-sorted hit list. -/
def balanceSpec (merged : List Hit) (limit : Nat) : List Hit :=
  if merged.length ≤ limit then merged
  else
    let reps := filenamesInOrder merged
    let per_doc_quota := max 1 (limit / reps.length)
    (sortByScoreDesc
        ((reps.map (fun f => (docHits merged f).take per_doc_quota)).flatten)).take
      limit

/-- Number of distinct source documents represented in a result list. -/
def distinctDocs (results : List Hit) : Nat :=
  (results.map (fun h => h.filename)).toFinset.card

/-! ### Qdrant point store and the two upsert paths

The store itself is external.  Modelled from the spec: "`upsert(collection,
points)`: each point = (unique id, vector, metadata payload).  Insert or
overwrite by id."  Vectors are irrelevant to every claim and are omitted
from the point payload. -/

/-- A stored point: Qdrant id plus the payload fields both code paths
attach (minus the vector). -/
structure QPoint where
  id : String
  document_id : String
  filename : String
  chunk_index : Nat
  text : String
  total_chunks : Nat
deriving DecidableEq

/-- Insert-or-overwrite one point by id (Qdrant upsert semantics,
modelled from the spec). -/
def upsertPoint (store : List QPoint) (p : QPoint) : List QPoint :=
  if store.any (fun q => q.id == p.id) then
    store.map (fun q => if q.id == p.id then p else q)
  else store ++ [p]

/-- Upsert a batch of points in order. -/
def upsertPoints (store : List QPoint) (ps : List QPoint) : List QPoint :=
  ps.foldl upsertPoint store

/-- A store whose point ids are pairwise distinct (invariant maintained
by `upsertPoint`). -/
def nodupIds (store : List QPoint) : Prop :=
  (store.map (fun p => p.id)).Nodup

/-- Decimal digit character, as Python renders one digit of `str(i)`. -/
def decDigitChar (d : Nat) : Char := Char.ofNat (48 + d)

/-- Decimal rendering worker; `fuel > n` always suffices since the
number shrinks by a factor of 10 each step. -/
def natToDecAux : Nat → Nat → List Char
  | 0, _ => []
  | fuel + 1, n =>
    if n < 10 then [decDigitChar n]
    else natToDecAux fuel (n / 10) ++ [decDigitChar (n % 10)]

/-- Decimal rendering of a natural number (Python `str(i)` for the
nonnegative `i` of an f-string). -/
def natToDec (n : Nat) : List Char := natToDecAux (n + 1) n

/-- The deterministic point id `f"{document_id}_{i}"` used by
`PDFProcessor.store_in_qdrant` (processor/main.py line 116). -/
def pointId (document_id : String) (i : Nat) : String :=
  document_id ++ "_" ++ String.mk (natToDec i)

/-- The point batch built by `PDFProcessor.store_in_qdrant`
(processor/main.py lines 110–131): enumerate the chunks, attach the
deterministic id and the payload. -/
def storePoints (document_id filename : String) (chunks : List String) :
    List QPoint :=
  chunks.enum.map (fun ic =>
    { id := pointId document_id ic.1
      document_id := document_id
      filename := filename
      chunk_index := ic.1
      text := ic.2
      total_chunks := chunks.length })

/-- Indexed-recursion form of `storePoints` used in proofs. -/
def storePointsFrom (document_id filename : String) (total : Nat) :
    Nat → List String → List QPoint
  | _, [] => []
  | k, c :: cs =>
    { id := pointId document_id k
      document_id := document_id
      filename := filename
      chunk_index := k
      text := c
      total_chunks := total } :: storePointsFrom document_id filename total (k + 1) cs

/-- The point batch built by `process_pdf_with_llamaindex_and_qdrant_api`
(app_qdrant_api.py lines 143–163): ids are `str(uuid.uuid4())`, modelled
as drawing from a supply `freshIds` of newly generated ids; the payload's
`document_id` is the per-document collection name. -/
def apiPoints (freshIds : List String) (collection_name filename : String)
    (docs : List String) : List QPoint :=
  docs.enum.map (fun ic =>
    { id := freshIds.getD ic.1 ""
      document_id := collection_name
      filename := filename
      chunk_index := ic.1
      text := ic.2
      total_chunks := docs.length })

/-! ### Collection lifecycle — `ensure_collection_exists`
(app_qdrant_api.py, lines 84–113)

```
response = requests.get(f"{QDRANT_API_URL}/collections/{collection_name}")
if response.status_code == 200:
    return True
collection_config = {"vectors": {"size": vector_size, "distance": "Cosine"}}
response = requests.put(..., json=collection_config)
if response.status_code == 200:
    return True
...
```

The Qdrant service state is the list of (collection name, vector size)
pairs; GET answers 200 exactly when the name exists, and PUT on an absent
name creates it with the requested size.  The reachable-service error
branches (`return False`) are not modelled: the claim under examination
only exercises the name-already-exists path. -/

def ensure_collection_exists (st : List (String × Nat))
    (collection_name : String) (vector_size : Nat) : Bool × List (String × Nat) :=
  if st.any (fun c => c.1 == collection_name) then (true, st)
  else (true, st ++ [(collection_name, vector_size)])

/-! ### `search_qdrant_api` end-to-end and `get_all_collections`
(app_qdrant_api.py, lines 182–278)

The Streamlit side effects (`st.info` / `st.warning` / `st.error`) are
the function's only failure signal — on every failure path it *returns*
`[]` — so they are modelled explicitly as emitted messages. -/

/-- A Streamlit message emitted during a search. -/
inductive Msg
  | info (s : String)
  | warning (s : String)
  | error (s : String)
deriving DecidableEq

/-- Whether some emitted message is an error. -/
def hasErrorMsg (msgs : List Msg) : Bool :=
  msgs.any (fun m => match m with | Msg.error _ => true | _ => false)

/-- The external world a query interacts with: the embedding backend
(`.error` = the model raised, caught by the outer `except`), the
collections listing endpoint (`.error` = request failed or non-200), and
each collection's search endpoint (`.error` = non-200 response, reported
and skipped). -/
structure SearchEnv where
  embed : Except String Unit
  collectionsResp : Except String (List String)
  searchResp : String → Except String (List Hit)

/-- `get_all_collections`: list collections, keep names starting with
`COLLECTION_NAME = "pdf_documents"`; on failure report an error and
return `[]`. -/
def get_all_collections (resp : Except String (List String)) :
    List String × List Msg :=
  match resp with
  | Except.ok names =>
      (names.filter (fun n => n.startsWith "pdf_documents"), [])
  | Except.error e => ([], [Msg.error ("Failed to get collections: " ++ e)])

/-- `search_qdrant_api`: embed the query, discover collections, search
each collection (failures reported and skipped), merge, then balance via
`searchBalance`.  Returns the hit list together with the messages shown
to the user. -/
def search_qdrant_api (env : SearchEnv) (limit : Nat) : List Hit × List Msg :=
  match env.embed with
  | Except.error e => ([], [Msg.error ("Error searching Qdrant: " ++ e)])
  | Except.ok _ =>
    let gc := get_all_collections env.collectionsResp
    if gc.1.isEmpty then
      ([], gc.2 ++ [Msg.warning "No collections found in Qdrant"])
    else
      let looped := gc.1.foldl
        (fun acc c =>
          match env.searchResp c with
          | Except.ok hits =>
              (acc.1 ++ hits, acc.2 ++ [Msg.info ("Found results in collection: " ++ c)])
          | Except.error e =>
              (acc.1, acc.2 ++ [Msg.error ("Failed to search collection " ++ c ++ ": " ++ e)]))
        ([], gc.2 ++ [Msg.info "Searching across collections"])
      (searchBalance looped.1 limit, looped.2)

/-! ### Concrete scenario data -/

/-- Scenario C hits: "cats.pdf" with 4 hits, "dogs.pdf" with 1 hit. -/
def catHitA : Hit :=
  { score := 9, document_id := "pdf_documents_cats", filename := "cats.pdf"
    chunk_index := 0, text := "c0", total_chunks := 4 }

def catHitB : Hit :=
  { score := 7, document_id := "pdf_documents_cats", filename := "cats.pdf"
    chunk_index := 1, text := "c1", total_chunks := 4 }

def catHitC : Hit :=
  { score := 5, document_id := "pdf_documents_cats", filename := "cats.pdf"
    chunk_index := 2, text := "c2", total_chunks := 4 }

def catHitD : Hit :=
  { score := 3, document_id := "pdf_documents_cats", filename := "cats.pdf"
    chunk_index := 3, text := "c3", total_chunks := 4 }

def dogHitA : Hit :=
  { score := 8, document_id := "pdf_documents_dogs", filename := "dogs.pdf"
    chunk_index := 0, text := "d0", total_chunks := 1 }

/-- The merged per-collection results of Scenario C (cats collection
first, dogs collection second, as the fan-out appends them). -/
def catsDogsMerged : List Hit :=
  [catHitA, catHitB, catHitC, catHitD, dogHitA]

/-! ## Chunker lemmas -/

theorem pyIdx_natCast (n k : Nat) : pyIdx n (k : Int) = min k n := by
  unfold pyIdx
  rw [if_neg (by omega)]
  have h : ((k : Int)).toNat = k := by omega
  rw [h]

theorem pySlice_natCast (text : List Char) (s c : Nat) :
    pySlice text (s : Int) ((s : Int) + (c : Int)) = (text.drop s).take c := by
  unfold pySlice
  have hc : (s : Int) + (c : Int) = ((s + c : Nat) : Int) := by push_cast; ring
  rw [hc, pyIdx_natCast, pyIdx_natCast, List.drop_take]
  rcases le_or_lt s text.length with hs | hs
  · rw [min_eq_left hs]
    apply List.take_eq_take.mpr
    rw [List.length_drop]
    omega
  · rw [min_eq_right (by omega : text.length ≤ s + c), min_eq_right hs.le,
      Nat.sub_self, List.take_zero, List.drop_eq_nil_of_le hs.le, List.take_nil]

/-- Accumulator lemma: the chunks collected so far are a prefix of the
final output. -/
theorem chunkAux_acc (text : List Char) (cs ov : Nat) :
    ∀ (fuel : Nat) (start : Int) (acc : List (List Char)),
      chunkAux text cs ov fuel start acc =
        (chunkAux text cs ov fuel start []).map (fun out => acc ++ out) := by
  intro fuel
  induction fuel with
  | zero => intro start acc; rfl
  | succ n ih =>
    intro start acc
    simp only [chunkAux]
    by_cases h1 : start < (text.length : Int)
    · rw [if_pos h1, if_pos h1]
      by_cases h2 : (text.length : Int) ≤ start + (cs : Int) - (ov : Int)
      · rw [if_pos h2, if_pos h2]
        simp
      · rw [if_neg h2, if_neg h2]
        rw [ih _ (acc ++ [_]), ih _ ([] ++ [_])]
        cases chunkAux text cs ov n (start + (cs : Int) - (ov : Int)) [] <;> simp
    · rw [if_neg h1, if_neg h1]
      simp

/-- Termination and chunk count: with `ov < cs` and enough fuel the loop
finishes and emits `⌈(len - start) / (cs - ov)⌉` chunks. -/
theorem chunkAux_count (text : List Char) (cs ov : Nat) (hov : ov < cs) :
    ∀ (fuel start : Nat), start < text.length → text.length ≤ start + fuel →
      ∃ out, chunkAux text cs ov fuel (start : Int) [] = some out ∧
        out.length = (text.length - start + (cs - ov) - 1) / (cs - ov) := by
  intro fuel
  induction fuel with
  | zero => intro start h1 h2; exact absurd h2 (by omega)
  | succ n ih =>
    intro start h1 h2
    simp only [chunkAux]
    rw [if_pos (by exact_mod_cast h1)]
    have hcast : (start : Int) + (cs : Int) - (ov : Int) =
        ((start + (cs - ov) : Nat) : Int) := by push_cast; omega
    rw [hcast]
    by_cases h3 : text.length ≤ start + (cs - ov)
    · rw [if_pos (by exact_mod_cast h3)]
      refine ⟨_, rfl, ?_⟩
      have hdiv : (text.length - start + (cs - ov) - 1) / (cs - ov) = 1 :=
        Nat.div_eq_of_lt_le (by omega) (by omega)
      simp [hdiv]
    · rw [if_neg (by exact_mod_cast h3)]
      rw [chunkAux_acc]
      obtain ⟨out, hout, hlen⟩ := ih (start + (cs - ov)) (by omega) (by omega)
      rw [hout]
      refine ⟨_, rfl, ?_⟩
      have h5 : (([] ++ [pySlice text (start : Int) ((start : Int) + (cs : Int))]) ++ out).length
          = out.length + 1 := by simp
      rw [h5, hlen]
      have hy : text.length - start + (cs - ov) - 1 =
          (text.length - (start + (cs - ov)) + (cs - ov) - 1) + (cs - ov) := by omega
      rw [hy, Nat.add_div_right _ (by omega)]

/-- Dropping the first `ov` characters of every chunk and concatenating
yields the tail of the text from `start + ov` on. -/
theorem chunkAux_dropJoin (text : List Char) (cs ov : Nat) (hov : ov < cs) :
    ∀ (fuel start : Nat) (out : List (List Char)),
      chunkAux text cs ov fuel (start : Int) [] = some out →
      (out.map (List.drop ov)).flatten = text.drop (start + ov) := by
  intro fuel
  induction fuel with
  | zero => intro start out h; exact absurd h (by simp [chunkAux])
  | succ n ih =>
    intro start out h
    simp only [chunkAux] at h
    by_cases h1 : (start : Int) < (text.length : Int)
    · rw [if_pos h1] at h
      have hcast : (start : Int) + (cs : Int) - (ov : Int) =
          ((start + (cs - ov) : Nat) : Int) := by push_cast; omega
      rw [hcast, pySlice_natCast] at h
      by_cases h3 : text.length ≤ start + (cs - ov)
      · rw [if_pos (by exact_mod_cast h3)] at h
        have hout : out = [((text.drop start).take cs)] := by
          injection h with h'
          exact h'.symm
        subst hout
        simp only [List.map_cons, List.map_nil, List.flatten_cons, List.flatten_nil,
          List.append_nil]
        rw [List.drop_take, List.drop_drop]
        apply List.take_of_length_le
        rw [List.length_drop]
        omega
      · rw [if_neg (by exact_mod_cast h3)] at h
        rw [chunkAux_acc] at h
        cases hrec : chunkAux text cs ov n ((start + (cs - ov) : Nat) : Int) [] with
        | none => rw [hrec] at h; exact absurd h (by simp)
        | some out' =>
          rw [hrec] at h
          have hout : out = (text.drop start).take cs :: out' := by
            simp only [Option.map_some'] at h
            injection h with h'
            rw [← h']
            simp
          subst hout
          have IH := ih (start + (cs - ov)) out' hrec
          simp only [List.map_cons, List.flatten_cons]
          rw [IH]
          have e1 : ((text.drop start).take cs).drop ov =
              (text.drop (start + ov)).take (cs - ov) := by
            rw [List.drop_take, List.drop_drop]
          have e2 : text.drop (start + (cs - ov) + ov) =
              (text.drop (start + ov)).drop (cs - ov) := by
            rw [List.drop_drop]
            congr 1
            omega
          rw [e1, e2]
          exact List.take_append_drop _ _
    · rw [if_neg h1] at h
      have hout : out = [] := by
        injection h with h'
        exact h'.symm
      subst hout
      simp only [List.map_nil, List.flatten_nil]
      rw [List.drop_eq_nil_of_le (by omega)]

/-- Reconstruction: the chunks produced from position `start` join back
(first chunk whole, later chunks with their first `ov` characters
removed) to the tail of the text from `start` on. -/
theorem chunkAux_join (text : List Char) (cs ov : Nat) (hov : ov < cs) :
    ∀ (fuel start : Nat) (out : List (List Char)),
      chunkAux text cs ov fuel (start : Int) [] = some out →
      joinOverlap ov out = text.drop start := by
  intro fuel
  cases fuel with
  | zero => intro start out h; exact absurd h (by simp [chunkAux])
  | succ n =>
    intro start out h
    simp only [chunkAux] at h
    by_cases h1 : (start : Int) < (text.length : Int)
    · rw [if_pos h1] at h
      have hcast : (start : Int) + (cs : Int) - (ov : Int) =
          ((start + (cs - ov) : Nat) : Int) := by push_cast; omega
      rw [hcast, pySlice_natCast] at h
      by_cases h3 : text.length ≤ start + (cs - ov)
      · rw [if_pos (by exact_mod_cast h3)] at h
        have hout : out = [((text.drop start).take cs)] := by
          injection h with h'
          exact h'.symm
        subst hout
        simp only [joinOverlap, List.map_nil, List.flatten_nil, List.append_nil]
        apply List.take_of_length_le
        rw [List.length_drop]
        omega
      · rw [if_neg (by exact_mod_cast h3)] at h
        rw [chunkAux_acc] at h
        cases hrec : chunkAux text cs ov n ((start + (cs - ov) : Nat) : Int) [] with
        | none => rw [hrec] at h; exact absurd h (by simp)
        | some out' =>
          rw [hrec] at h
          have hout : out = (text.drop start).take cs :: out' := by
            simp only [Option.map_some'] at h
            injection h with h'
            rw [← h']
            simp
          subst hout
          have hdrop := chunkAux_dropJoin text cs ov hov n (start + (cs - ov)) out' hrec
          simp only [joinOverlap]
          rw [hdrop]
          have harith : start + (cs - ov) + ov = start + cs := by omega
          rw [harith, ← List.drop_drop]
          exact List.take_append_drop _ _
    · rw [if_neg h1] at h
      have hout : out = [] := by
        injection h with h'
        exact h'.symm
      subst hout
      simp only [joinOverlap]
      rw [List.drop_eq_nil_of_le (by omega)]

/-- For a valid configuration on text longer than `chunk_size`,
`chunk_text` terminates, produces `⌈len / (chunk_size - overlap)⌉`
chunks, and the chunks reconstruct the text. -/
theorem chunk_text_total (text : List Char) (cs ov : Nat) (hov : ov < cs)
    (hlen : cs < text.length) :
    ∃ out, chunk_text text cs ov = some out ∧
      out.length = (text.length + (cs - ov) - 1) / (cs - ov) ∧
      joinOverlap ov out = text := by
  unfold chunk_text
  rw [if_neg (by omega)]
  obtain ⟨out, hout, hcount⟩ :=
    chunkAux_count text cs ov hov (text.length + 1) 0 (by omega) (by omega)
  have hjoin := chunkAux_join text cs ov hov (text.length + 1) 0 out hout
  refine ⟨out, ?_, ?_, ?_⟩
  · exact_mod_cast hout
  · rw [hcount, Nat.sub_zero]
  · rw [hjoin]; exact List.drop_zero text

/-! ## Claims about the chunker -/

/-- C1 (amended): for `overlap < chunk_size`, `chunk_text` returns one
chunk (the whole text) when `len(text) ≤ chunk_size`, and otherwise
exactly `⌈len(text) / (chunk_size - overlap)⌉` chunks — not the claimed
`⌈(len(text) - overlap) / (chunk_size - overlap)⌉`: the loop keeps
emitting tail chunks until the next start position passes the end, so a
2500-character text with chunk_size 1000 and overlap 200 yields 4
chunks, not 3. -/
theorem chunk_text_count_claim :
    ∀ (text : List Char) (chunk_size overlap : Nat), overlap < chunk_size →
      (text.length ≤ chunk_size → chunk_text text chunk_size overlap = some [text]) ∧
      (chunk_size < text.length →
        ∃ chunks, chunk_text text chunk_size overlap = some chunks ∧
          chunks.length =
            (text.length + (chunk_size - overlap) - 1) / (chunk_size - overlap)) := by
  intro text cs ov hov
  constructor
  · intro hle
    unfold chunk_text
    rw [if_pos hle]
  · intro hlt
    obtain ⟨out, h1, h2, _⟩ := chunk_text_total text cs ov hov hlt
    exact ⟨out, h1, h2⟩

theorem chunk_text_count_claim_witness :
    200 < 1000 ∧
    ((List.replicate 2500 'a').length ≤ 1000 →
      chunk_text (List.replicate 2500 'a') 1000 200 = some [List.replicate 2500 'a']) ∧
    (1000 < (List.replicate 2500 'a').length →
      ∃ chunks, chunk_text (List.replicate 2500 'a') 1000 200 = some chunks ∧
        chunks.length = ((List.replicate 2500 'a').length + (1000 - 200) - 1) / (1000 - 200)) :=
  ⟨by omega, chunk_text_count_claim (List.replicate 2500 'a') 1000 200 (by omega)⟩

/-- C1 counterexample: on a 2500-character text with `chunk_size = 1000`
and `overlap = 200` the code produces 4 chunks, while the claimed
formula `⌈(2500 - 200) / 800⌉` and Scenario A both say 3. -/
theorem chunk_text_count_counterexample :
    ∃ chunks, chunk_text (List.replicate 2500 'a') 1000 200 = some chunks ∧
      chunks.length = 4 ∧
      chunks.length ≠ (2500 - 200 + (1000 - 200) - 1) / (1000 - 200) := by
  obtain ⟨out, h1, h2, _⟩ :=
    chunk_text_total (List.replicate 2500 'a') 1000 200 (by omega)
      (by rw [List.length_replicate]; omega)
  rw [List.length_replicate] at h2
  norm_num at h2
  exact ⟨out, h1, h2, by omega⟩

/-- C4: the claim states the intended behaviour — with
`overlap ≥ chunk_size` on text longer than `chunk_size` the code should
fail fast with a configuration error.  The code contains no such check:
the loop's start position never advances past 0, so no amount of fuel
makes the embedded loop terminate (the Python loop runs forever), and no
`ConfigurationError` is ever raised. -/
theorem chunk_overlap_no_failfast :
    ∀ (text : List Char) (chunk_size overlap : Nat),
      chunk_size ≤ overlap → chunk_size < text.length →
      chunk_text text chunk_size overlap = none ∧
      ∀ (fuel : Nat) (start : Int) (acc : List (List Char)), start ≤ 0 →
        chunkAux text chunk_size overlap fuel start acc = none := by
  intro text cs ov hov hlen
  have main : ∀ (fuel : Nat) (start : Int) (acc : List (List Char)), start ≤ 0 →
      chunkAux text cs ov fuel start acc = none := by
    intro fuel
    induction fuel with
    | zero => intro start acc _; rfl
    | succ n ih =>
      intro start acc hstart
      simp only [chunkAux]
      rw [if_pos (by omega), if_neg (by omega)]
      exact ih _ _ (by omega)
  refine ⟨?_, main⟩
  unfold chunk_text
  rw [if_neg (by omega)]
  exact main _ 0 [] (by omega)

theorem chunk_overlap_no_failfast_witness :
    (2 ≤ 2 ∧ 2 < (['a', 'b', 'c'] : List Char).length) ∧
    chunk_text ['a', 'b', 'c'] 2 2 = none ∧
    chunkAux ['a', 'b', 'c'] 2 2 1000 0 [] = none :=
  ⟨⟨by omega, by decide⟩,
    (chunk_overlap_no_failfast ['a', 'b', 'c'] 2 2 (by omega) (by decide)).1,
    (chunk_overlap_no_failfast ['a', 'b', 'c'] 2 2 (by omega) (by decide)).2
      1000 0 [] (by omega)⟩

/-- C7 (amended): empty or whitespace-only text does not yield zero
chunks from `chunk_text` — any text no longer than `chunk_size` yields
the single chunk `[text]` — but the caller `process_pdf` never chunks
such text: its `strip()` guard returns "nothing to index" without an
error. -/
theorem chunk_whitespace_claim :
    ∀ (text : List Char), (∀ c ∈ text, isPySpace c = true) →
      process_pdf text = ProcessResult.nothingToIndex ∧
      (text.length ≤ 1000 → chunk_text text 1000 200 = some [text]) := by
  intro text h
  have hs : pyStrip text = [] := by
    unfold pyStrip
    rw [List.dropWhile_eq_nil_iff.mpr h]
    rfl
  constructor
  · unfold process_pdf
    rw [if_pos hs]
  · intro hlen
    unfold chunk_text
    rw [if_pos hlen]

theorem chunk_whitespace_claim_witness :
    (∀ c ∈ ([' '] : List Char), isPySpace c = true) ∧
    process_pdf [' '] = ProcessResult.nothingToIndex ∧
    chunk_text [' '] 1000 200 = some [[' ']] :=
  ⟨by decide,
    (chunk_whitespace_claim [' '] (by decide)).1,
    (chunk_whitespace_claim [' '] (by decide)).2 (by decide)⟩

/-- C7 counterexample: the chunk operation on empty and on
whitespace-only text yields one chunk (the text itself), not zero
chunks. -/
theorem chunk_whitespace_counterexample :
    chunk_text [] 1000 200 = some [[]] ∧
    chunk_text [' '] 1000 200 = some [[' ']] ∧
    chunk_text [' '] 1000 200 ≠ some [] := by
  refine ⟨rfl, rfl, by decide⟩

/-- C9: for any text and any valid configuration `overlap < chunk_size`,
concatenating the produced chunks after removing the first `overlap`
characters of every chunk but the first reconstructs the text exactly. -/
theorem chunk_text_reconstruct_claim :
    ∀ (text : List Char) (chunk_size overlap : Nat), overlap < chunk_size →
      ∃ chunks, chunk_text text chunk_size overlap = some chunks ∧
        joinOverlap overlap chunks = text := by
  intro text cs ov hov
  rcases le_or_lt text.length cs with h | h
  · refine ⟨[text], ?_, by simp [joinOverlap]⟩
    unfold chunk_text
    rw [if_pos h]
  · obtain ⟨out, h1, _, h3⟩ := chunk_text_total text cs ov hov h
    exact ⟨out, h1, h3⟩

theorem chunk_text_reconstruct_claim_witness :
    2 < 10 ∧
    ∃ chunks, chunk_text (List.replicate 25 'x') 10 2 = some chunks ∧
      joinOverlap 2 chunks = List.replicate 25 'x' :=
  ⟨by omega, chunk_text_reconstruct_claim (List.replicate 25 'x') 10 2 (by omega)⟩

/-! ## Balancing lemmas -/

theorem mem_newFilenames {f : String} :
    ∀ (l : List Hit) (ks : List String),
      f ∈ newFilenames ks l ↔ f ∉ ks ∧ ∃ x ∈ l, x.filename = f := by
  intro l
  induction l with
  | nil => intro ks; simp [newFilenames]
  | cons h t ih =>
    intro ks
    simp only [newFilenames]
    by_cases hm : h.filename ∈ ks
    · rw [if_pos hm, ih ks]
      constructor
      · rintro ⟨hnk, x, hx, hf⟩
        exact ⟨hnk, x, List.mem_cons_of_mem _ hx, hf⟩
      · rintro ⟨hnk, x, hx, hf⟩
        rcases List.mem_cons.mp hx with rfl | hx'
        · exact absurd (hf ▸ hm) hnk
        · exact ⟨hnk, x, hx', hf⟩
    · rw [if_neg hm]
      rw [List.mem_cons, ih (h.filename :: ks)]
      constructor
      · rintro (rfl | ⟨hnk, x, hx, hf⟩)
        · exact ⟨hm, h, List.mem_cons_self _ _, rfl⟩
        · exact ⟨fun hk => hnk (List.mem_cons_of_mem _ hk), x,
            List.mem_cons_of_mem _ hx, hf⟩
      · rintro ⟨hnk, x, hx, hf⟩
        rcases List.mem_cons.mp hx with rfl | hx'
        · exact Or.inl hf.symm
        · by_cases hfh : f = h.filename
          · exact Or.inl hfh
          · refine Or.inr ⟨?_, x, hx', hf⟩
            intro hmem
            rcases List.mem_cons.mp hmem with h1 | h1
            · exact hfh h1
            · exact hnk h1

theorem newFilenames_not_mem {f : String} (l : List Hit) (ks : List String)
    (h : f ∈ newFilenames ks l) : f ∉ ks :=
  ((mem_newFilenames l ks).mp h).1

theorem newFilenames_nodup : ∀ (l : List Hit) (ks : List String),
    (newFilenames ks l).Nodup := by
  intro l
  induction l with
  | nil => intro ks; simp [newFilenames]
  | cons h t ih =>
    intro ks
    simp only [newFilenames]
    by_cases hm : h.filename ∈ ks
    · rw [if_pos hm]; exact ih ks
    · rw [if_neg hm, List.nodup_cons]
      refine ⟨?_, ih _⟩
      intro hmem
      exact (newFilenames_not_mem t _ hmem) (List.mem_cons_self _ _)

theorem newFilenames_congr : ∀ (l : List Hit) (ks ks' : List String),
    (∀ x, x ∈ ks ↔ x ∈ ks') → newFilenames ks l = newFilenames ks' l := by
  intro l
  induction l with
  | nil => intros; rfl
  | cons h t ih =>
    intro ks ks' hiff
    simp only [newFilenames]
    by_cases hm : h.filename ∈ ks
    · rw [if_pos hm, if_pos ((hiff _).mp hm), ih ks ks' hiff]
    · rw [if_neg hm, if_neg (fun hc => hm ((hiff _).mpr hc))]
      rw [ih (h.filename :: ks) (h.filename :: ks')
        (by intro x; simp only [List.mem_cons]; rw [hiff x])]

theorem mem_filenamesInOrder {f : String} (l : List Hit) :
    f ∈ filenamesInOrder l ↔ ∃ x ∈ l, x.filename = f := by
  unfold filenamesInOrder
  rw [mem_newFilenames]
  simp

theorem filenamesInOrder_nodup (l : List Hit) : (filenamesInOrder l).Nodup :=
  newFilenames_nodup l []

theorem mem_docHits {x : Hit} {l : List Hit} {f : String} :
    x ∈ docHits l f ↔ x ∈ l ∧ x.filename = f := by
  unfold docHits
  rw [List.mem_filter]
  simp

/-- The dictionary loop of `search_qdrant_api` groups exactly as the
spec words it: the represented filenames in first-occurrence order, each
paired with that document's hits in list order. -/
theorem groupByFilename_fold (l : List Hit) :
    ∀ (acc : List (String × List Hit)),
      List.foldl
        (fun acc h =>
          if acc.any (fun p => h.filename == p.1) then
            acc.map (fun p => if h.filename == p.1 then (p.1, p.2 ++ [h]) else p)
          else acc ++ [(h.filename, [h])]) acc l =
      acc.map (fun p => (p.1, p.2 ++ docHits l p.1)) ++
        (newFilenames (acc.map Prod.fst) l).map (fun f => (f, docHits l f)) := by
  induction l with
  | nil =>
    intro acc
    simp [docHits, newFilenames]
  | cons h t ih =>
    intro acc
    rw [List.foldl_cons]
    by_cases hc : acc.any (fun p => h.filename == p.1) = true
    · rw [if_pos hc]
      rw [ih]
      have hmem : h.filename ∈ acc.map Prod.fst := by
        rcases List.any_eq_true.mp hc with ⟨p, hp, hbeq⟩
        exact List.mem_map.mpr ⟨p, hp, (beq_iff_eq.mp hbeq).symm⟩
      have hkeys : (acc.map
          (fun p => if h.filename == p.1 then (p.1, p.2 ++ [h]) else p)).map Prod.fst
          = acc.map Prod.fst := by
        rw [List.map_map]
        apply List.map_congr_left
        intro p _
        by_cases hpf : h.filename = p.1
        · simp [Function.comp, hpf]
        · simp [Function.comp, hpf]
      rw [hkeys]
      congr 1
      · rw [List.map_map]
        apply List.map_congr_left
        intro p _
        by_cases hpf : h.filename = p.1
        · simp [Function.comp, docHits, List.filter_cons, hpf]
        · simp [Function.comp, docHits, List.filter_cons, hpf]
      · conv_rhs =>
          rw [show newFilenames (acc.map Prod.fst) (h :: t)
              = newFilenames (acc.map Prod.fst) t from by
            simp only [newFilenames]; rw [if_pos hmem]]
        apply List.map_congr_left
        intro f hf
        have hne : ¬ h.filename = f := by
          intro heq
          exact (newFilenames_not_mem t _ hf) (heq ▸ hmem)
        simp [docHits, List.filter_cons, hne]
    · rw [if_neg hc]
      rw [ih]
      have hnotmem : h.filename ∉ acc.map Prod.fst := by
        intro hmem
        rcases List.mem_map.mp hmem with ⟨p, hp, hfp⟩
        exact hc (List.any_eq_true.mpr ⟨p, hp, beq_iff_eq.mpr hfp.symm⟩)
      have hforall : ∀ p ∈ acc, ¬ h.filename = p.1 := by
        intro p hp heq
        exact hnotmem (List.mem_map.mpr ⟨p, hp, heq.symm⟩)
      have e2 : (acc ++ [(h.filename, [h])]).map Prod.fst
          = acc.map Prod.fst ++ [h.filename] := by
        rw [List.map_append]; rfl
      have e3 : newFilenames (acc.map Prod.fst ++ [h.filename]) t
          = newFilenames (h.filename :: acc.map Prod.fst) t := by
        apply newFilenames_congr
        intro x
        simp only [List.mem_append, List.mem_cons, List.mem_singleton]
        tauto
      have e7 : newFilenames (acc.map Prod.fst) (h :: t)
          = h.filename :: newFilenames (h.filename :: acc.map Prod.fst) t := by
        simp only [newFilenames]
        rw [if_neg hnotmem]
      rw [e2, e3, e7, List.map_append]
      have e4 : acc.map (fun p => (p.1, p.2 ++ docHits t p.1))
          = acc.map (fun p => (p.1, p.2 ++ docHits (h :: t) p.1)) := by
        apply List.map_congr_left
        intro p hp
        simp [docHits, List.filter_cons, hforall p hp]
      have e5 : (newFilenames (h.filename :: acc.map Prod.fst) t).map
            (fun f => (f, docHits t f))
          = (newFilenames (h.filename :: acc.map Prod.fst) t).map
            (fun f => (f, docHits (h :: t) f)) := by
        apply List.map_congr_left
        intro f hf
        have hne : ¬ h.filename = f := by
          intro heq
          exact (newFilenames_not_mem t _ hf) (heq ▸ List.mem_cons_self _ _)
        simp [docHits, List.filter_cons, hne]
      have e6 : ([(h.filename, [h])] : List (String × List Hit)).map
            (fun p => (p.1, p.2 ++ docHits t p.1))
          = [(h.filename, docHits (h :: t) h.filename)] := by
        simp [docHits, List.filter_cons]
      rw [e4, e5, e6]
      rw [List.map_cons, List.append_assoc]
      rfl

theorem groupByFilename_eq (l : List Hit) :
    groupByFilename l = (filenamesInOrder l).map (fun f => (f, docHits l f)) := by
  unfold groupByFilename filenamesInOrder
  rw [groupByFilename_fold]
  simp

/-- Code-vs-spec refinement of the balancing step: the tail of
`search_qdrant_api` computes exactly the spec-worded balancing applied
to the sorted merged list. -/
theorem searchBalance_eq_balanceSpec (hits : List Hit) (limit : Nat) :
    searchBalance hits limit = balanceSpec (sortByScoreDesc hits) limit := by
  simp only [searchBalance, balanceSpec]
  by_cases hlt : limit < (sortByScoreDesc hits).length
  · rw [if_pos hlt, if_neg (by omega)]
    simp only [groupByFilename_eq, List.map_map, List.length_map, Function.comp]
    rfl
  · rw [if_neg hlt, if_pos (by omega)]
    exact List.take_of_length_le (by omega)

/-- C2: for every merged hit list exceeding `limit`, the aggregator
groups by filename, computes `per_doc_quota = max(1, limit // d)`, takes
each document's top quota score-sorted hits, re-merges, re-sorts
descending and truncates to `limit`; a merged list within `limit` is
returned as-is — i.e. the code equals the spec-worded balancing on every
input — and in Scenario C (cats.pdf with 4 hits, dogs.pdf with 1,
limit 2) the output is exactly each document's highest-scoring hit. -/
theorem balance_matches_spec_claim :
    (∀ (hits : List Hit) (limit : Nat),
        searchBalance hits limit = balanceSpec (sortByScoreDesc hits) limit) ∧
    searchBalance catsDogsMerged 2 = [catHitA, dogHitA] :=
  ⟨searchBalance_eq_balanceSpec, by decide⟩

theorem sortByScoreDesc_perm (l : List Hit) : (sortByScoreDesc l).Perm l :=
  List.perm_insertionSort _ l

theorem length_sortByScoreDesc (l : List Hit) :
    (sortByScoreDesc l).length = l.length :=
  (sortByScoreDesc_perm l).length_eq

theorem distinctDocs_perm {l l' : List Hit} (h : l.Perm l') :
    distinctDocs l = distinctDocs l' := by
  unfold distinctDocs
  rw [List.toFinset_eq_of_perm _ _ (h.map (fun h => h.filename))]

theorem distinctDocs_eq_reps (l : List Hit) :
    distinctDocs l = (filenamesInOrder l).length := by
  unfold distinctDocs
  have h1 : (filenamesInOrder l).toFinset = (l.map (fun h => h.filename)).toFinset := by
    ext a
    simp only [List.mem_toFinset, List.mem_map]
    rw [mem_filenamesInOrder]
  rw [← h1, List.toFinset_card_of_nodup (filenamesInOrder_nodup l)]

theorem flatten_singletons {α : Type} (l : List α) :
    (l.map (fun a => [a])).flatten = l := by
  induction l with
  | nil => rfl
  | cons a t ih => simp [ih]

/-- Length of the balanced pool: each represented document contributes
`min quota (its hit count)` hits. -/
theorem balanced_length (merged : List Hit) (q : Nat) :
    (((filenamesInOrder merged).map (fun f => (docHits merged f).take q)).flatten).length
      = ((filenamesInOrder merged).map (fun f => min q (docHits merged f).length)).sum := by
  rw [List.length_flatten, List.map_map]
  apply congrArg List.sum
  apply List.map_congr_left
  intro f _
  simp [Function.comp, List.length_take]

/-- With a positive quota, the balanced pool represents exactly the
documents of the merged list. -/
theorem balanced_toFinset (merged : List Hit) (q : Nat) (hq : 1 ≤ q) :
    ((((filenamesInOrder merged).map (fun f => (docHits merged f).take q)).flatten).map
        (fun h => h.filename)).toFinset
      = (merged.map (fun h => h.filename)).toFinset := by
  ext a
  simp only [List.mem_toFinset, List.mem_map, List.mem_flatten]
  constructor
  · rintro ⟨y, ⟨L, ⟨f, _, hfL⟩, hyL⟩, rfl⟩
    subst hfL
    have hy' : y ∈ docHits merged f := (List.take_sublist q _).subset hyL
    exact ⟨y, (mem_docHits.mp hy').1, rfl⟩
  · rintro ⟨y, hy, rfl⟩
    have hf : y.filename ∈ filenamesInOrder merged :=
      (mem_filenamesInOrder merged).mpr ⟨y, hy, rfl⟩
    have hne : docHits merged y.filename ≠ [] := by
      intro hnil
      have hmem : y ∈ docHits merged y.filename := mem_docHits.mpr ⟨hy, rfl⟩
      rw [hnil] at hmem
      exact List.not_mem_nil y hmem
    obtain ⟨z, zs, hzs⟩ := List.exists_cons_of_ne_nil hne
    have hz : z ∈ docHits merged y.filename := by
      rw [hzs]; exact List.mem_cons_self _ _
    refine ⟨z, ⟨(docHits merged y.filename).take q,
      ⟨y.filename, hf, rfl⟩, ?_⟩, (mem_docHits.mp hz).2⟩
    rw [hzs]
    cases q with
    | zero => omega
    | succ n =>
      rw [List.take_succ_cons]
      exact List.mem_cons_self _ _

/-- With quota 1 the balanced pool has exactly one hit per represented
document, in represented-document order. -/
theorem balanced_map_filename_one (merged : List Hit) :
    ((((filenamesInOrder merged).map (fun f => (docHits merged f).take 1)).flatten).map
        (fun h => h.filename))
      = filenamesInOrder merged := by
  rw [List.map_flatten, List.map_map]
  have h1 : (filenamesInOrder merged).map
        ((List.map (fun h => h.filename)) ∘ (fun f => (docHits merged f).take 1))
      = (filenamesInOrder merged).map (fun a => [a]) := by
    apply List.map_congr_left
    intro f hf
    rcases (mem_filenamesInOrder merged).mp hf with ⟨x, hx, hxf⟩
    have hne : docHits merged f ≠ [] := by
      intro hnil
      have hmem : x ∈ docHits merged f := mem_docHits.mpr ⟨hx, hxf⟩
      rw [hnil] at hmem
      exact List.not_mem_nil x hmem
    obtain ⟨z, zs, hzs⟩ := List.exists_cons_of_ne_nil hne
    have hz : z ∈ docHits merged f := by
      rw [hzs]; exact List.mem_cons_self _ _
    simp [Function.comp, hzs, (mem_docHits.mp hz).2]
  rw [h1, flatten_singletons]

/-- Distinct-document count of the spec-worded balancing output: exactly
`min d limit` documents remain whenever at least `limit` hits exist. -/
theorem balanceSpec_distinctDocs (merged : List Hit) (limit : Nat) :
    distinctDocs (balanceSpec merged limit) = min (distinctDocs merged) limit := by
  simp only [balanceSpec]
  by_cases hc : merged.length ≤ limit
  · rw [if_pos hc]
    have hddle : distinctDocs merged ≤ limit := by
      calc distinctDocs merged
          ≤ (merged.map (fun h => h.filename)).length := List.toFinset_card_le _
        _ = merged.length := List.length_map _ _
        _ ≤ limit := hc
    rw [min_eq_left hddle]
  · rw [if_neg hc]
    push_neg at hc
    have hdR : distinctDocs merged = (filenamesInOrder merged).length :=
      distinctDocs_eq_reps merged
    by_cases hdlim : (filenamesInOrder merged).length ≤ limit
    · -- every represented document stays
      have hd1 : 1 ≤ (filenamesInOrder merged).length := by
        have hnil : merged ≠ [] := by
          intro hnil
          rw [hnil] at hc
          simp at hc
        obtain ⟨x, xs, hxs⟩ := List.exists_cons_of_ne_nil hnil
        have hxm : x.filename ∈ filenamesInOrder merged := by
          rw [mem_filenamesInOrder]
          exact ⟨x, by rw [hxs]; exact List.mem_cons_self _ _, rfl⟩
        exact List.length_pos.mpr (List.ne_nil_of_mem hxm)
      have hq1 : 1 ≤ max 1 (limit / (filenamesInOrder merged).length) := le_max_left _ _
      have hqval : max 1 (limit / (filenamesInOrder merged).length)
          = limit / (filenamesInOrder merged).length :=
        max_eq_right ((Nat.one_le_div_iff hd1).mpr hdlim)
      have hBlen : (((filenamesInOrder merged).map
            (fun f => (docHits merged f).take
              (max 1 (limit / (filenamesInOrder merged).length)))).flatten).length
          ≤ limit := by
        rw [balanced_length]
        calc ((filenamesInOrder merged).map
              (fun f => min (max 1 (limit / (filenamesInOrder merged).length))
                (docHits merged f).length)).sum
            ≤ ((filenamesInOrder merged).map
              (fun f => min (max 1 (limit / (filenamesInOrder merged).length))
                (docHits merged f).length)).length
                • (max 1 (limit / (filenamesInOrder merged).length)) := by
              apply List.sum_le_card_nsmul
              intro x hx
              rcases List.mem_map.mp hx with ⟨f, _, rfl⟩
              exact min_le_left _ _
          _ = (filenamesInOrder merged).length
                * (max 1 (limit / (filenamesInOrder merged).length)) := by
              rw [List.length_map, smul_eq_mul]
          _ ≤ limit := by
              rw [hqval, mul_comm]
              exact Nat.div_mul_le_self limit _
      rw [List.take_of_length_le (by rw [length_sortByScoreDesc]; exact hBlen)]
      rw [distinctDocs_perm (sortByScoreDesc_perm _)]
      have hBdd : distinctDocs (((filenamesInOrder merged).map
            (fun f => (docHits merged f).take
              (max 1 (limit / (filenamesInOrder merged).length)))).flatten)
          = distinctDocs merged := by
        unfold distinctDocs
        exact congrArg Finset.card (balanced_toFinset merged _ hq1)
      rw [hBdd, min_eq_left (by omega)]
    · -- more documents than slots: quota 1, limit distinct documents kept
      push_neg at hdlim
      have hq0 : limit / (filenamesInOrder merged).length = 0 := Nat.div_eq_of_lt hdlim
      have hqval : max 1 (limit / (filenamesInOrder merged).length) = 1 := by
        rw [hq0]
        omega
      rw [hqval]
      have hmapB : ((((filenamesInOrder merged).map
            (fun f => (docHits merged f).take 1)).flatten).map (fun h => h.filename))
          = filenamesInOrder merged := balanced_map_filename_one merged
      have hBnodup : ((((filenamesInOrder merged).map
            (fun f => (docHits merged f).take 1)).flatten).map (fun h => h.filename)).Nodup := by
        rw [hmapB]
        exact filenamesInOrder_nodup merged
      have hBlen : (((filenamesInOrder merged).map
            (fun f => (docHits merged f).take 1)).flatten).length
          = (filenamesInOrder merged).length := by
        have hcongr := congrArg List.length hmapB
        rwa [List.length_map] at hcongr
      have hsortmap : (((sortByScoreDesc (((filenamesInOrder merged).map
            (fun f => (docHits merged f).take 1)).flatten)).map (fun h => h.filename))).Nodup := by
        refine (List.Perm.nodup_iff ?_).mpr hBnodup
        exact (sortByScoreDesc_perm _).map _
      have houtnodup : ((((sortByScoreDesc (((filenamesInOrder merged).map
            (fun f => (docHits merged f).take 1)).flatten)).take limit).map
              (fun h => h.filename))).Nodup := by
        rw [List.map_take]
        exact List.Nodup.sublist (List.take_sublist _ _) hsortmap
      have houtlen : ((sortByScoreDesc (((filenamesInOrder merged).map
            (fun f => (docHits merged f).take 1)).flatten)).take limit).length = limit := by
        rw [List.length_take, length_sortByScoreDesc, hBlen]
        omega
      have hdd : distinctDocs ((sortByScoreDesc (((filenamesInOrder merged).map
            (fun f => (docHits merged f).take 1)).flatten)).take limit) = limit := by
        unfold distinctDocs
        rw [List.toFinset_card_of_nodup houtnodup, List.length_map, houtlen]
      rw [hdd, hdR, min_eq_right (by omega)]

theorem filenamesInOrder_sort_perm (hits : List Hit) :
    (filenamesInOrder (sortByScoreDesc hits)).Perm (filenamesInOrder hits) := by
  apply (List.perm_ext_iff_of_nodup (filenamesInOrder_nodup _)
    (filenamesInOrder_nodup _)).mpr
  intro f
  rw [mem_filenamesInOrder, mem_filenamesInOrder]
  constructor
  · rintro ⟨x, hx, hxf⟩
    exact ⟨x, (sortByScoreDesc_perm hits).subset hx, hxf⟩
  · rintro ⟨x, hx, hxf⟩
    exact ⟨x, (sortByScoreDesc_perm hits).symm.subset hx, hxf⟩

theorem docHits_sort_length (hits : List Hit) (f : String) :
    (docHits (sortByScoreDesc hits) f).length = (docHits hits f).length :=
  ((sortByScoreDesc_perm hits).filter _).length_eq

/-- C5: for every merged result set spanning `d` documents (each
represented document has at least one hit by definition) and every
`limit` not exceeding the total number of hits, the balanced output
contains hits from exactly `min d limit` distinct documents. -/
theorem balanced_distinct_docs_claim :
    ∀ (hits : List Hit) (limit : Nat), limit ≤ hits.length →
      distinctDocs (searchBalance hits limit) = min (distinctDocs hits) limit := by
  intro hits limit _
  rw [searchBalance_eq_balanceSpec]
  rw [balanceSpec_distinctDocs (sortByScoreDesc hits) limit]
  rw [distinctDocs_perm (sortByScoreDesc_perm hits)]

theorem balanced_distinct_docs_claim_witness :
    2 ≤ catsDogsMerged.length ∧
    distinctDocs (searchBalance catsDogsMerged 2) = min (distinctDocs catsDogsMerged) 2 :=
  ⟨by decide, balanced_distinct_docs_claim catsDogsMerged 2 (by decide)⟩

/-- C10 (implicit): when balancing activates (merged hits exceed
`limit`), the aggregator never backfills — the returned list's length is
`min limit (Σ over represented documents of min(per_doc_quota, that
document's hit count))` — and this falls short of `limit` in the
concrete 4-hit/1-hit example with `limit = 4` (quota 2, only 3 hits
survive) even though 5 merged hits were available. -/
theorem balanced_no_backfill_claim :
    (∀ (hits : List Hit) (limit : Nat), limit < hits.length →
      (searchBalance hits limit).length =
        min limit (((filenamesInOrder hits).map
          (fun f => min (max 1 (limit / (filenamesInOrder hits).length))
            (docHits hits f).length)).sum)) ∧
    catsDogsMerged.length = 5 ∧
    (searchBalance catsDogsMerged 4).length = 3 ∧ 3 < 4 := by
  refine ⟨?_, by decide, by decide, by omega⟩
  intro hits limit hlt
  rw [searchBalance_eq_balanceSpec]
  simp only [balanceSpec]
  rw [if_neg (by rw [length_sortByScoreDesc]; omega)]
  rw [List.length_take, length_sortByScoreDesc, balanced_length]
  congr 1
  calc ((filenamesInOrder (sortByScoreDesc hits)).map
        (fun f => min (max 1 (limit / (filenamesInOrder (sortByScoreDesc hits)).length))
          (docHits (sortByScoreDesc hits) f).length)).sum
      = ((filenamesInOrder (sortByScoreDesc hits)).map
        (fun f => min (max 1 (limit / (filenamesInOrder hits).length))
          (docHits hits f).length)).sum := by
        apply congrArg
        apply List.map_congr_left
        intro f _
        rw [docHits_sort_length, (filenamesInOrder_sort_perm hits).length_eq]
    _ = ((filenamesInOrder hits).map
        (fun f => min (max 1 (limit / (filenamesInOrder hits).length))
          (docHits hits f).length)).sum :=
        ((filenamesInOrder_sort_perm hits).map _).sum_eq

theorem balanced_no_backfill_claim_witness :
    4 < catsDogsMerged.length ∧
    (searchBalance catsDogsMerged 4).length =
      min 4 (((filenamesInOrder catsDogsMerged).map
        (fun f => min (max 1 (4 / (filenamesInOrder catsDogsMerged).length))
          (docHits catsDogsMerged f).length)).sum) :=
  ⟨by decide, balanced_no_backfill_claim.1 catsDogsMerged 4 (by decide)⟩

/-! ## Point-store lemmas -/

theorem decDigitChar_inj :
    ∀ a < 10, ∀ b < 10, decDigitChar a = decDigitChar b → a = b := by decide

theorem natToDecAux_ne_nil : ∀ (fuel n : Nat), n < fuel → natToDecAux fuel n ≠ [] := by
  intro fuel
  cases fuel with
  | zero => intro n h; exact absurd h (by omega)
  | succ k =>
    intro n _
    simp only [natToDecAux]
    split
    · simp
    · simp

theorem natToDecAux_inj : ∀ (f1 m : Nat), m < f1 → ∀ (f2 n : Nat), n < f2 →
    natToDecAux f1 m = natToDecAux f2 n → m = n := by
  intro f1
  induction f1 with
  | zero => intro m h; exact absurd h (by omega)
  | succ k ih =>
    intro m hm f2 n hn heq
    cases f2 with
    | zero => exact absurd hn (by omega)
    | succ k2 =>
      simp only [natToDecAux] at heq
      by_cases h10m : m < 10 <;> by_cases h10n : n < 10
      · rw [if_pos h10m, if_pos h10n] at heq
        injection heq with h1 _
        exact decDigitChar_inj m h10m n h10n h1
      · rw [if_pos h10m, if_neg h10n] at heq
        have hlen := congrArg List.length heq
        simp only [List.length_cons, List.length_nil, List.length_append] at hlen
        have hnil : natToDecAux k2 (n / 10) = [] :=
          List.eq_nil_of_length_eq_zero (by omega)
        refine absurd hnil (natToDecAux_ne_nil k2 (n / 10) ?_)
        have := Nat.div_lt_self (show 0 < n by omega) (show (1:Nat) < 10 by omega)
        omega
      · rw [if_neg h10m, if_pos h10n] at heq
        have hlen := congrArg List.length heq
        simp only [List.length_cons, List.length_nil, List.length_append] at hlen
        have hnil : natToDecAux k (m / 10) = [] :=
          List.eq_nil_of_length_eq_zero (by omega)
        refine absurd hnil (natToDecAux_ne_nil k (m / 10) ?_)
        have := Nat.div_lt_self (show 0 < m by omega) (show (1:Nat) < 10 by omega)
        omega
      · rw [if_neg h10m, if_neg h10n] at heq
        obtain ⟨h1, h2⟩ := List.append_inj' heq (by simp)
        injection h2 with h2' _
        have hmod : m % 10 = n % 10 :=
          decDigitChar_inj _ (Nat.mod_lt _ (by omega)) _ (Nat.mod_lt _ (by omega)) h2'
        have hdivm := Nat.div_lt_self (show 0 < m by omega) (show (1:Nat) < 10 by omega)
        have hdivn := Nat.div_lt_self (show 0 < n by omega) (show (1:Nat) < 10 by omega)
        have hdiv : m / 10 = n / 10 := ih (m / 10) (by omega) k2 (n / 10) (by omega) h1
        omega

theorem natToDec_inj {m n : Nat} (h : natToDec m = natToDec n) : m = n :=
  natToDecAux_inj (m + 1) m (by omega) (n + 1) n (by omega) h

theorem pointId_inj (doc : String) {i j : Nat} (h : pointId doc i = pointId doc j) :
    i = j := by
  unfold pointId at h
  have hdata := congrArg String.data h
  simp only [String.data_append] at hdata
  exact natToDec_inj (List.append_cancel_left hdata)

theorem storePoints_eq (doc fn : String) (chunks : List String) :
    storePoints doc fn chunks = storePointsFrom doc fn chunks.length 0 chunks := by
  have hgen : ∀ (cs : List String) (k total : Nat),
      (List.enumFrom k cs).map (fun ic =>
        ({ id := pointId doc ic.1
           document_id := doc
           filename := fn
           chunk_index := ic.1
           text := ic.2
           total_chunks := total } : QPoint))
      = storePointsFrom doc fn total k cs := by
    intro cs
    induction cs with
    | nil => intro k total; rfl
    | cons c cs' ih =>
      intro k total
      simp only [List.enumFrom, List.map_cons, storePointsFrom]
      rw [ih (k + 1) total]
  exact hgen chunks 0 chunks.length

theorem mem_storePointsFrom {p : QPoint} {doc fn : String} {total : Nat} :
    ∀ (cs : List String) (k : Nat), p ∈ storePointsFrom doc fn total k cs →
      p.document_id = doc ∧ p.id = pointId doc p.chunk_index := by
  intro cs
  induction cs with
  | nil => intro k h; exact absurd h (List.not_mem_nil p)
  | cons c cs' ih =>
    intro k h
    simp only [storePointsFrom] at h
    rcases List.mem_cons.mp h with rfl | h'
    · exact ⟨rfl, rfl⟩
    · exact ih (k + 1) h'

theorem storePointsFrom_filter (doc fn : String) (total i : Nat) :
    ∀ (cs : List String) (k : Nat),
      (storePointsFrom doc fn total k cs).filter (fun p => p.id == pointId doc i)
        = if k ≤ i ∧ i < k + cs.length then
            [{ id := pointId doc i
               document_id := doc
               filename := fn
               chunk_index := i
               text := cs.getD (i - k) ""
               total_chunks := total }]
          else [] := by
  intro cs
  induction cs with
  | nil =>
    intro k
    simp only [storePointsFrom, List.filter_nil, List.length_nil]
    rw [if_neg (by omega)]
  | cons c cs' ih =>
    intro k
    simp only [storePointsFrom, List.filter_cons]
    by_cases hk : k = i
    · subst hk
      rw [if_pos (by simp), ih (k + 1), if_neg (by omega),
        if_pos (by simp only [List.length_cons]; omega)]
      simp
    · have hbeq : ¬ ((pointId doc k == pointId doc i) = true) := by
        intro hb
        exact hk (pointId_inj doc (beq_iff_eq.mp hb))
      rw [if_neg hbeq, ih (k + 1)]
      by_cases hcond : k + 1 ≤ i ∧ i < (k + 1) + cs'.length
      · rw [if_pos hcond, if_pos (by simp only [List.length_cons]; omega)]
        have hik : i - k = (i - (k + 1)) + 1 := by omega
        rw [hik, List.getD_cons_succ]
      · rw [if_neg hcond, if_neg (by simp only [List.length_cons]; omega)]

theorem nodupIds_upsertPoint {store : List QPoint} (h : nodupIds store) (p : QPoint) :
    nodupIds (upsertPoint store p) := by
  unfold upsertPoint
  by_cases hc : store.any (fun q => q.id == p.id) = true
  · rw [if_pos hc]
    unfold nodupIds at h ⊢
    have hids : (store.map (fun q => if q.id == p.id then p else q)).map (fun q => q.id)
        = store.map (fun q => q.id) := by
      rw [List.map_map]
      apply List.map_congr_left
      intro q _
      by_cases hq : q.id = p.id
      · simp [Function.comp, hq]
      · simp [Function.comp, hq]
    rw [hids]
    exact h
  · rw [if_neg hc]
    unfold nodupIds at h ⊢
    rw [List.map_append, List.nodup_append]
    refine ⟨h, by simp, ?_⟩
    intro a ha hb
    simp only [List.map_cons, List.map_nil, List.mem_singleton] at hb
    subst hb
    rcases List.mem_map.mp ha with ⟨q, hq, hqid⟩
    exact hc (List.any_eq_true.mpr ⟨q, hq, beq_iff_eq.mpr hqid⟩)

theorem nodupIds_upsertPoints :
    ∀ (ps store : List QPoint), nodupIds store → nodupIds (upsertPoints store ps) := by
  intro ps
  induction ps with
  | nil => intro store h; exact h
  | cons p ps' ih =>
    intro store h
    exact ih _ (nodupIds_upsertPoint h p)

theorem mem_upsertPoint {p q : QPoint} {store : List QPoint}
    (h : p ∈ upsertPoint store q) : p ∈ store ∨ p = q := by
  unfold upsertPoint at h
  by_cases hc : store.any (fun r => r.id == q.id) = true
  · rw [if_pos hc] at h
    rcases List.mem_map.mp h with ⟨r, hr, hrq⟩
    by_cases hrid : r.id = q.id
    · right
      rw [← hrq]
      simp [hrid]
    · left
      rw [← hrq]
      simp [hrid]
      exact hr
  · rw [if_neg hc] at h
    rcases List.mem_append.mp h with h' | h'
    · exact Or.inl h'
    · exact Or.inr (List.mem_singleton.mp h')

theorem mem_upsertPoints {p : QPoint} :
    ∀ (ps store : List QPoint), p ∈ upsertPoints store ps → p ∈ store ∨ p ∈ ps := by
  intro ps
  induction ps with
  | nil => intro store h; exact Or.inl h
  | cons q ps' ih =>
    intro store h
    rcases ih (upsertPoint store q) h with h' | h'
    · rcases mem_upsertPoint h' with h'' | h''
      · exact Or.inl h''
      · exact Or.inr (h'' ▸ List.mem_cons_self _ _)
    · exact Or.inr (List.mem_cons_of_mem _ h')

/-- One upsert step, observed through a lookup by id: the incoming point
wins its own id, every other id is untouched. -/
theorem upsertPoint_filter (p : QPoint) (id0 : String) :
    ∀ (store : List QPoint), nodupIds store →
      (upsertPoint store p).filter (fun q => q.id == id0)
        = if p.id == id0 then [p] else store.filter (fun q => q.id == id0) := by
  intro store
  induction store with
  | nil =>
    intro _
    unfold upsertPoint
    simp only [List.any_nil, Bool.false_eq_true, if_false, List.nil_append,
      List.filter_cons, List.filter_nil]
  | cons q rest ih =>
    intro h
    have hq : q.id ∉ rest.map (fun r => r.id) ∧ nodupIds rest := by
      unfold nodupIds at h
      rw [List.map_cons, List.nodup_cons] at h
      exact h
    unfold upsertPoint
    by_cases hqp : q.id = p.id
    · rw [if_pos (by simp [List.any_cons, hqp])]
      have hrest : rest.map (fun r => if r.id == p.id then p else r) = rest := by
        conv_rhs => rw [← List.map_id rest]
        apply List.map_congr_left
        intro r hr
        have hne : ¬ r.id = p.id := by
          intro he
          exact hq.1 (List.mem_map.mpr ⟨r, hr, by rw [he, ← hqp]⟩)
        simp [hne]
      rw [List.map_cons, hrest]
      have hfq : (if q.id == p.id then p else q) = p := by simp [hqp]
      rw [hfq, List.filter_cons]
      by_cases hp0 : p.id = id0
      · rw [if_pos (beq_iff_eq.mpr hp0), if_pos (beq_iff_eq.mpr hp0)]
        have hnil : rest.filter (fun r => r.id == id0) = [] := by
          rw [List.filter_eq_nil_iff]
          intro r hr hbeq
          exact hq.1 (List.mem_map.mpr ⟨r, hr,
            by rw [beq_iff_eq.mp hbeq, ← hp0, ← hqp]⟩)
        rw [hnil]
      · rw [if_neg (by simp [hp0]), if_neg (by simp [hp0])]
        rw [List.filter_cons, if_neg (by simp [hqp, hp0])]
    · rw [List.any_cons]
      have hhead : (q.id == p.id) = false := by simp [hqp]
      rw [hhead, Bool.false_or]
      by_cases hrany : rest.any (fun r => r.id == p.id) = true
      · rw [if_pos hrany]
        rw [List.map_cons]
        have hfq : (if q.id == p.id then p else q) = q := by simp [hqp]
        rw [hfq, List.filter_cons]
        have hrw : (rest.map (fun r => if r.id == p.id then p else r)).filter
              (fun r => r.id == id0)
            = if p.id == id0 then [p] else rest.filter (fun r => r.id == id0) := by
          have hstep : upsertPoint rest p
              = rest.map (fun r => if r.id == p.id then p else r) := by
            unfold upsertPoint
            rw [if_pos hrany]
          rw [← hstep]
          exact ih hq.2
        rw [hrw]
        by_cases hp0 : p.id = id0
        · rw [if_pos (beq_iff_eq.mpr hp0), if_pos (beq_iff_eq.mpr hp0)]
          have hqid0 : (q.id == id0) = false := by
            simp only [beq_eq_false_iff_ne, ne_eq]
            intro he
            exact hqp (by rw [he, hp0])
          rw [hqid0]
          simp only [Bool.false_eq_true, if_false]
        · have hpf : (p.id == id0) = false := by simp [hp0]
          rw [hpf]
          simp only [Bool.false_eq_true, if_false]
          rw [List.filter_cons]
      · rw [if_neg hrany]
        rw [List.filter_append]
        by_cases hp0 : p.id = id0
        · rw [if_pos (beq_iff_eq.mpr hp0)]
          have hnil : (q :: rest).filter (fun r => r.id == id0) = [] := by
            rw [List.filter_eq_nil_iff]
            intro r hr hbeq
            have hrid : r.id = p.id := by rw [beq_iff_eq.mp hbeq, hp0]
            rcases List.mem_cons.mp hr with rfl | hr'
            · exact hqp hrid
            · exact hrany (List.any_eq_true.mpr ⟨r, hr', beq_iff_eq.mpr hrid⟩)
          rw [hnil, List.nil_append, List.filter_cons, if_pos (beq_iff_eq.mpr hp0),
            List.filter_nil]
        · rw [if_neg (by simp [hp0])]
          have hpf : ([p] : List QPoint).filter (fun r => r.id == id0) = [] := by
            rw [List.filter_eq_nil_iff]
            intro r hr hbeq
            rw [List.mem_singleton.mp hr] at hbeq
            exact hp0 (beq_iff_eq.mp hbeq)
          rw [hpf, List.append_nil]

/-- If a batch never writes `id0`, an upsert of the batch leaves the
lookup of `id0` unchanged. -/
theorem upsertPoints_filter_none (id0 : String) :
    ∀ (ps store : List QPoint), nodupIds store →
      ps.filter (fun q => q.id == id0) = [] →
      (upsertPoints store ps).filter (fun q => q.id == id0)
        = store.filter (fun q => q.id == id0) := by
  intro ps
  induction ps with
  | nil => intro store _ _; rfl
  | cons p ps' ih =>
    intro store h hnil
    rw [List.filter_cons] at hnil
    by_cases hp0 : (p.id == id0) = true
    · rw [if_pos hp0] at hnil
      exact absurd hnil (by simp)
    · rw [if_neg hp0] at hnil
      have : upsertPoints store (p :: ps') = upsertPoints (upsertPoint store p) ps' := rfl
      rw [this, ih _ (nodupIds_upsertPoint h p) hnil,
        upsertPoint_filter p id0 store h, if_neg hp0]

/-- If a batch's last write of `id0` is the point `q0`, a lookup of
`id0` after upserting the batch returns exactly `q0` — the latest
version, with no duplicates. -/
theorem upsertPoints_filter_last (id0 : String) (q0 : QPoint) :
    ∀ (ps store : List QPoint), nodupIds store →
      (ps.filter (fun q => q.id == id0)).getLast? = some q0 →
      (upsertPoints store ps).filter (fun q => q.id == id0) = [q0] := by
  intro ps
  induction ps with
  | nil =>
    intro store _ hlast
    simp at hlast
  | cons p ps' ih =>
    intro store h hlast
    have hstep : upsertPoints store (p :: ps') = upsertPoints (upsertPoint store p) ps' := rfl
    rw [List.filter_cons] at hlast
    by_cases hftail : ps'.filter (fun q => q.id == id0) = []
    · rw [hftail] at hlast
      by_cases hp0 : (p.id == id0) = true
      · rw [if_pos hp0] at hlast
        have hq0 : q0 = p := by
          simp only [List.getLast?_singleton, Option.some.injEq] at hlast
          exact hlast.symm
        rw [hq0, hstep,
          upsertPoints_filter_none id0 ps' _ (nodupIds_upsertPoint h p) hftail,
          upsertPoint_filter p id0 store h, if_pos hp0]
      · rw [if_neg hp0] at hlast
        simp at hlast
    · obtain ⟨x, xs, hxs⟩ := List.exists_cons_of_ne_nil hftail
      have hlast' : (ps'.filter (fun q => q.id == id0)).getLast? = some q0 := by
        by_cases hp0 : (p.id == id0) = true
        · rw [if_pos hp0, hxs, List.getLast?_cons_cons] at hlast
          rw [hxs]
          exact hlast
        · rw [if_neg hp0] at hlast
          exact hlast
      rw [hstep]
      exact ih _ (nodupIds_upsertPoint h p) hlast'

/-- C3 (amended): in `PDFProcessor.store_in_qdrant` the point ids are
the deterministic `f"{document_id}_{chunk_index}"`, so upserting chunk
batches for the same document twice replaces rather than duplicates:
after the second batch, the store holds exactly one point for each
`(document_id, chunk_index)` pair and its text is the second batch's —
a subsequent search only ever sees the latest version.  (The
`process_pdf_with_llamaindex_and_qdrant_api` path instead uses fresh
`uuid4()` ids and duplicates; see the counterexample.) -/
theorem point_id_idempotence_claim :
    ∀ (doc fn : String) (chunks1 chunks2 : List String) (i : Nat),
      i < chunks1.length → i < chunks2.length →
      ((upsertPoints (upsertPoints [] (storePoints doc fn chunks1))
          (storePoints doc fn chunks2)).filter
        (fun p => p.document_id == doc && p.chunk_index == i)).map (fun p => p.text)
        = [chunks2.getD i ""] := by
  intro doc fn chunks1 chunks2 i _ h2
  have hnodup1 : nodupIds (upsertPoints [] (storePoints doc fn chunks1)) :=
    nodupIds_upsertPoints _ [] (by simp [nodupIds])
  have hmem2 : ∀ p ∈ upsertPoints (upsertPoints [] (storePoints doc fn chunks1))
      (storePoints doc fn chunks2),
      p.document_id = doc ∧ p.id = pointId doc p.chunk_index := by
    intro p hp
    rcases mem_upsertPoints _ _ hp with hp' | hp'
    · rcases mem_upsertPoints _ _ hp' with hp'' | hp''
      · exact absurd hp'' (List.not_mem_nil p)
      · rw [storePoints_eq] at hp''
        exact mem_storePointsFrom chunks1 0 hp''
    · rw [storePoints_eq] at hp'
      exact mem_storePointsFrom chunks2 0 hp'
  have hfeq : (upsertPoints (upsertPoints [] (storePoints doc fn chunks1))
        (storePoints doc fn chunks2)).filter
        (fun p => p.document_id == doc && p.chunk_index == i)
      = (upsertPoints (upsertPoints [] (storePoints doc fn chunks1))
        (storePoints doc fn chunks2)).filter
        (fun p => p.id == pointId doc i) := by
    apply List.filter_congr
    intro p hp
    obtain ⟨hdoc, hid⟩ := hmem2 p hp
    by_cases hc : p.chunk_index = i
    · simp [hdoc, hc, hid]
    · have hne : ¬ p.id = pointId doc i := by
        rw [hid]
        intro he
        exact hc (pointId_inj doc he)
      simp [hdoc, hc, hne]
  rw [hfeq]
  have hfilter2 : (storePoints doc fn chunks2).filter (fun p => p.id == pointId doc i)
      = [{ id := pointId doc i
           document_id := doc
           filename := fn
           chunk_index := i
           text := chunks2.getD i ""
           total_chunks := chunks2.length }] := by
    rw [storePoints_eq, storePointsFrom_filter]
    rw [if_pos (by omega)]
    simp
  have hlast : ((storePoints doc fn chunks2).filter
        (fun p => p.id == pointId doc i)).getLast?
      = some { id := pointId doc i
               document_id := doc
               filename := fn
               chunk_index := i
               text := chunks2.getD i ""
               total_chunks := chunks2.length } := by
    rw [hfilter2]
    rfl
  rw [upsertPoints_filter_last (pointId doc i) _ (storePoints doc fn chunks2)
    (upsertPoints [] (storePoints doc fn chunks1)) hnodup1 hlast]
  rfl

theorem point_id_idempotence_claim_witness :
    0 < (["v1"] : List String).length ∧ 0 < (["v2"] : List String).length ∧
    ((upsertPoints (upsertPoints [] (storePoints "doc" "f.pdf" ["v1"]))
        (storePoints "doc" "f.pdf" ["v2"])).filter
      (fun p => p.document_id == "doc" && p.chunk_index == 0)).map (fun p => p.text)
      = [(["v2"] : List String).getD 0 ""] :=
  ⟨by decide, by decide,
    point_id_idempotence_claim "doc" "f.pdf" ["v1"] ["v2"] 0 (by decide) (by decide)⟩

/-- C3 counterexample: the claim's cited upload path
`process_pdf_with_llamaindex_and_qdrant_api` does NOT derive ids as
`{document_id}_{chunk_index}` — each upload draws fresh `uuid4()` ids —
so uploading the same document (same `document_id`, same `chunk_index`
0) twice with different text duplicates the point instead of replacing
it: both versions remain and a search over the store can return the
stale first version. -/
theorem point_id_idempotence_counterexample :
    ((upsertPoints (upsertPoints [] (apiPoints ["u1"] "pdf_documents_cats" "cats.pdf" ["v1"]))
        (apiPoints ["u2"] "pdf_documents_cats" "cats.pdf" ["v2"])).filter
      (fun p => p.document_id == "pdf_documents_cats" && p.chunk_index == 0)).map
        (fun p => p.text) = ["v1", "v2"] ∧
    ((upsertPoints (upsertPoints [] (apiPoints ["u1"] "pdf_documents_cats" "cats.pdf" ["v1"]))
        (apiPoints ["u2"] "pdf_documents_cats" "cats.pdf" ["v2"])).filter
      (fun p => p.document_id == "pdf_documents_cats" && p.chunk_index == 0)).length ≠ 1 := by
  refine ⟨by decide, by decide⟩

/-! ## Collection lifecycle and search signalling claims -/

/-- C6 (amended): when the requested collection name already exists,
`ensure_collection_exists` returns success (`True`) immediately —
whatever vector size was requested — and the stored collections are
untouched; the dimensionality conflict is never detected, so no
`CollectionCreateFailed` failure is reported on this path. -/
theorem ensure_collection_exists_claim :
    ∀ (st : List (String × Nat)) (collection_name : String) (vector_size : Nat),
      st.any (fun c => c.1 == collection_name) = true →
      ensure_collection_exists st collection_name vector_size = (true, st) := by
  intro st name vs h
  unfold ensure_collection_exists
  rw [if_pos h]

theorem ensure_collection_exists_claim_witness :
    ([("pdf_documents_cats", 384)] : List (String × Nat)).any
        (fun c => c.1 == "pdf_documents_cats") = true ∧
    ensure_collection_exists [("pdf_documents_cats", 384)] "pdf_documents_cats" 1024
      = (true, [("pdf_documents_cats", 384)]) :=
  ⟨by decide,
    ensure_collection_exists_claim [("pdf_documents_cats", 384)]
      "pdf_documents_cats" 1024 (by decide)⟩

/-- C6 counterexample: requesting creation with `vector_size = 1024` for
a name that already exists with `vector_size = 384` does NOT fail — the
call reports success (`True`, not a failure), because the code returns
`True` as soon as the GET on the collection name answers 200, without
comparing dimensionalities.  (The untouched-store half of the claim does
hold.) -/
theorem ensure_collection_exists_counterexample :
    ensure_collection_exists [("pdf_documents_cats", 384)] "pdf_documents_cats" 1024
      = (true, [("pdf_documents_cats", 384)]) ∧
    (ensure_collection_exists [("pdf_documents_cats", 384)]
      "pdf_documents_cats" 1024).1 ≠ false := by
  refine ⟨by decide, by decide⟩

/-- The per-collection search loop of `search_qdrant_api`, when every
collection answers 200 with zero hits: no hits accumulate and no error
message is emitted beyond whatever was already there. -/
theorem search_loop_all_empty (env : SearchEnv)
    (hok : ∀ c, env.searchResp c = Except.ok []) :
    ∀ (cs : List String) (acc : List Hit × List Msg),
      (cs.foldl
        (fun acc c =>
          match env.searchResp c with
          | Except.ok hits =>
              (acc.1 ++ hits, acc.2 ++ [Msg.info ("Found results in collection: " ++ c)])
          | Except.error e =>
              (acc.1, acc.2 ++ [Msg.error ("Failed to search collection " ++ c ++ ": " ++ e)]))
        acc).1 = acc.1 ∧
      hasErrorMsg ((cs.foldl
        (fun acc c =>
          match env.searchResp c with
          | Except.ok hits =>
              (acc.1 ++ hits, acc.2 ++ [Msg.info ("Found results in collection: " ++ c)])
          | Except.error e =>
              (acc.1, acc.2 ++ [Msg.error ("Failed to search collection " ++ c ++ ": " ++ e)]))
        acc).2) = hasErrorMsg acc.2 := by
  intro cs
  induction cs with
  | nil => intro acc; exact ⟨rfl, rfl⟩
  | cons c cs' ih =>
    intro acc
    rw [List.foldl_cons]
    simp only [hok c]
    obtain ⟨ih1, ih2⟩ := ih (acc.1 ++ [], acc.2 ++ [Msg.info ("Found results in collection: " ++ c)])
    rw [ih1, ih2]
    constructor
    · simp
    · unfold hasErrorMsg
      rw [List.any_append]
      simp

theorem searchBalance_nil (limit : Nat) : searchBalance [] limit = [] := by
  simp only [searchBalance, sortByScoreDesc, List.insertionSort]
  rw [if_neg (by simp)]
  exact List.take_nil

/-- C8: an empty search result is an explicit, non-error outcome,
distinguishable from failure by the emitted messages.  A zero-document
query (no collections) returns `[]` with a warning and no error message;
a zero-match query (collections answer with no hits) returns `[]` with
no error message; a failing query (embedding backend raises) returns
`[]` with an error message. -/
theorem empty_result_distinct_claim :
    ∀ (env : SearchEnv) (limit : Nat),
      (∀ e, env.embed = Except.error e →
        search_qdrant_api env limit
          = ([], [Msg.error ("Error searching Qdrant: " ++ e)]) ∧
        hasErrorMsg (search_qdrant_api env limit).2 = true) ∧
      (env.embed = Except.ok () → env.collectionsResp = Except.ok [] →
        search_qdrant_api env limit
          = ([], [Msg.warning "No collections found in Qdrant"]) ∧
        hasErrorMsg (search_qdrant_api env limit).2 = false) ∧
      (∀ names, env.embed = Except.ok () → env.collectionsResp = Except.ok names →
        (∀ c, env.searchResp c = Except.ok []) →
        (search_qdrant_api env limit).1 = [] ∧
        hasErrorMsg (search_qdrant_api env limit).2 = false) := by
  intro env limit
  refine ⟨?_, ?_, ?_⟩
  · intro e he
    simp only [search_qdrant_api, he]
    exact ⟨trivial, rfl⟩
  · intro he hc
    simp only [search_qdrant_api, he, get_all_collections, hc, List.filter_nil,
      List.isEmpty_nil, if_true, List.nil_append]
    exact ⟨trivial, rfl⟩
  · intro names he hc hok
    simp only [search_qdrant_api, he, get_all_collections, hc]
    by_cases hemp : (names.filter (fun n => n.startsWith "pdf_documents")).isEmpty = true
    · rw [if_pos hemp]
      exact ⟨rfl, rfl⟩
    · rw [if_neg hemp]
      obtain ⟨h1, h2⟩ := search_loop_all_empty env hok
        (names.filter (fun n => n.startsWith "pdf_documents"))
        ([], [] ++ [Msg.info "Searching across collections"])
      constructor
      · simp only [h1]
        exact searchBalance_nil limit
      · simp only [h2]
        rfl

theorem empty_result_distinct_claim_witness :
    (search_qdrant_api ⟨Except.error "backend down", Except.ok [], fun _ => Except.ok []⟩ 5
        = ([], [Msg.error ("Error searching Qdrant: " ++ "backend down")]) ∧
      hasErrorMsg (search_qdrant_api
        ⟨Except.error "backend down", Except.ok [], fun _ => Except.ok []⟩ 5).2 = true) ∧
    (search_qdrant_api ⟨Except.ok (), Except.ok [], fun _ => Except.ok []⟩ 5
        = ([], [Msg.warning "No collections found in Qdrant"]) ∧
      hasErrorMsg (search_qdrant_api
        ⟨Except.ok (), Except.ok [], fun _ => Except.ok []⟩ 5).2 = false) ∧
    ((search_qdrant_api
        ⟨Except.ok (), Except.ok ["pdf_documents_cats"], fun _ => Except.ok []⟩ 5).1 = [] ∧
      hasErrorMsg (search_qdrant_api
        ⟨Except.ok (), Except.ok ["pdf_documents_cats"], fun _ => Except.ok []⟩ 5).2 = false) :=
  ⟨(empty_result_distinct_claim
      ⟨Except.error "backend down", Except.ok [], fun _ => Except.ok []⟩ 5).1
      "backend down" rfl,
    (empty_result_distinct_claim
      ⟨Except.ok (), Except.ok [], fun _ => Except.ok []⟩ 5).2.1 rfl rfl,
    (empty_result_distinct_claim
      ⟨Except.ok (), Except.ok ["pdf_documents_cats"], fun _ => Except.ok []⟩ 5).2.2
      ["pdf_documents_cats"] rfl rfl (fun _ => rfl)⟩
